import Mathlib

/-!
# Internet Money: peer registry and discovery protocol (`internetmoney.js`)

A shallow embedding of the peer bookkeeping of `internetmoney.js`:
`serialize_peer`, `normalize_peer`, the class `PeerList`, the registry methods
of `PeerTalkSocket` (`addUntrustedPeer`, `addPeer`, `removePeer`), the command
classifier of the socket's `'message'` listener, `send` / `sendRaw`, and the
listeners that `PeerTalkClient` registers.

Conventions of the embedding.

* JavaScript values are restricted to what the peer functions inspect: the
  primitives, and plain objects seen through their `address` and `port`
  properties (every other own property is kept in `rest`).  Numbers are the
  integer-valued ones (`Int`), for which `x|0` is reduction modulo `2^32` into
  the signed range and the string conversion is the decimal numeral.  A `port`
  is `undefined`, `null`, a boolean or such a number.
* A JavaScript method mutates its receiver and may throw half-way.  A method is
  therefore a function from the state before the call to a `Result`: the state
  at the moment the call ends, and the exception that ended it, if any.
* The libraries `lru`, `underscore`, `ubjson` and `dgram` are not part of the
  repository.  The cache is modelled from its description; the sampler and the
  encoder are parameters.
-/

namespace InternetMoney

/-! ## Constants -/

/-- The constant `VERSION`. -/
def VERSION : Int := 0

/-- The constant `DEF_PORT`. -/
def DEF_PORT : Int := 4305

/-- The constant `DEF_PEER_LIMIT`. -/
def DEF_PEER_LIMIT : Int := 256

/-! ## Values -/

/-- Primitive JavaScript values; `num n` is the number with integer value `n`. -/
inductive Prim where
  | undefined
  | null
  | bool (b : Bool)
  | num (n : Int)
  | str (s : String)
deriving DecidableEq, Repr

/-- Values of a `port` or `count` property: the primitives other than strings. -/
inductive Scalar where
  | undefined
  | null
  | bool (b : Bool)
  | num (n : Int)
deriving DecidableEq, Repr

/-- Values handed to the peer functions: a primitive, or an object given by
its `address` property, its `port` property (`undefined` when it has none) and
its remaining own properties. -/
inductive JSVal where
  | prim (p : Prim)
  | obj (address : Prim) (port : Scalar) (rest : List (String × Prim))
deriving DecidableEq, Repr

/-- Exceptions raised by the runtime. -/
inductive JSError where
  | typeError
deriving DecidableEq, Repr

deriving instance DecidableEq for Except

/-- The conversion `ToInt32` on an integer-valued number: reduction modulo
`2^32` into `[-2^31, 2^31)`. -/
def wrapInt32 (n : Int) : Int := (n + 2147483648) % 4294967296 - 2147483648

/-- The expression `x|0` for a port or count value `x`: `ToNumber` followed by
`ToInt32` (`undefined` is `NaN`, which `ToInt32` sends to `0`). -/
def Scalar.toInt32 : Scalar → Int
  | .undefined => 0
  | .null => 0
  | .bool b => if b then 1 else 0
  | .num n => wrapInt32 n

/-- String conversion (`x + ""`) of a primitive. -/
def Prim.toStr : Prim → String
  | .undefined => "undefined"
  | .null => "null"
  | .bool b => if b then "true" else "false"
  | .num n => toString n
  | .str s => s

/-- String conversion of a port value. -/
def Scalar.toStr : Scalar → String
  | .undefined => "undefined"
  | .null => "null"
  | .bool b => if b then "true" else "false"
  | .num n => toString n

/-- The conversion `ToNumber` on a port or count value; `none` is `NaN`. -/
def Scalar.toNumber : Scalar → Option Int
  | .undefined => none
  | .null => some 0
  | .bool b => some (if b then 1 else 0)
  | .num n => some n

/-- The comparison `a <= b`: false as soon as one side is `NaN`. -/
def Scalar.le (a b : Scalar) : Bool :=
  match a.toNumber, b.toNumber with
  | some x, some y => decide (x ≤ y)
  | _, _ => false

/-- The comparison `a > b`: false as soon as one side is `NaN`. -/
def Scalar.gt (a b : Scalar) : Bool :=
  match a.toNumber, b.toNumber with
  | some x, some y => decide (y < x)
  | _, _ => false

/-- Truthiness of a value, as tested by `if(x)`. -/
def JSVal.truthy : JSVal → Bool
  | .prim .undefined => false
  | .prim .null => false
  | .prim (.bool b) => b
  | .prim (.num n) => decide (n ≠ 0)
  | .prim (.str s) => decide (s ≠ "")
  | .obj _ _ _ => true

/-- The test `typeof a != 'string'`, negated. -/
def Prim.isString : Prim → Bool
  | .str _ => true
  | _ => false

/-- The separator `'\0'` of `serialize_peer`. -/
def NUL : String := String.singleton (Char.ofNat 0)

/-! ## `serialize_peer` and `normalize_peer` -/

/-- The function `serialize_peer`: `peer.address + '\0' + peer.port`.  Reading
a property of `undefined` or `null` throws; a boolean, number or string has
neither property, so both reads give `undefined`. -/
def serialize_peer (peer : JSVal) : Except JSError String :=
  match peer with
  | .prim .undefined => .error .typeError
  | .prim .null => .error .typeError
  | .prim _ => .ok (Prim.undefined.toStr ++ NUL ++ Scalar.undefined.toStr)
  | .obj a p _ => .ok (a.toStr ++ NUL ++ p.toStr)

/-- The expression `(x|0) || DEF_PORT`. -/
def portOrDefault (x : Scalar) : Int :=
  if x.toInt32 = 0 then DEF_PORT else x.toInt32

/-- The function `normalize_peer`: reads `peer.address` and
`(peer.port|0) || DEF_PORT`, returns `null` unless the address is a string, and
otherwise a fresh object with exactly these two properties. -/
def normalize_peer (peer : JSVal) : Except JSError JSVal :=
  match peer with
  | .prim .undefined => .error .typeError
  | .prim .null => .error .typeError
  | .prim _ => .ok (.prim .null)
  | .obj a p _ =>
    if a.isString then .ok (.obj a (.num (portOrDefault p)) []) else .ok (.prim .null)

/-! ## The cache -/

/-- Modelled from the spec: the `lru` package is not in the repository.  It is
"a bounded least-recently-used cache providing get/set/evict-oldest
semantics", whose "capacity is fixed at construction" and where "insertion
beyond capacity evicts the least-recently-touched entry".  The entries are
listed from the least recently to the most recently touched. -/
structure LRU where
  max : Nat
  entries : List (String × JSVal)
deriving DecidableEq, Repr

namespace LRU

/-- The call `new LRU(size)`. -/
def new (size : Nat) : LRU := ⟨size, []⟩

/-- The property `keys`. -/
def keys (c : LRU) : List String := c.entries.map Prod.fst

/-- The entries under a key other than `key`. -/
def others (c : LRU) (key : String) : List (String × JSVal) :=
  c.entries.filter (fun e => e.1 != key)

/-- The method `remove`. -/
def remove (c : LRU) (key : String) : LRU := { c with entries := c.others key }

/-- The method `set`: a key already present is refreshed and becomes the most
recently touched; a new key is inserted as the most recently touched, after
the least recently touched entry has been evicted when the cache is full. -/
def set (c : LRU) (key : String) (value : JSVal) : LRU :=
  if key ∈ c.keys then
    { c with entries := c.others key ++ [(key, value)] }
  else if c.max ≤ c.entries.length then
    { c with entries := c.entries.tail ++ [(key, value)] }
  else
    { c with entries := c.entries ++ [(key, value)] }

end LRU

/-! ## `PeerList` -/

/-- The class `PeerList`: its only field is `data`. -/
structure PeerList where
  data : LRU
deriving DecidableEq, Repr

namespace PeerList

/-- The constructor `new PeerList(size)`. -/
def new (size : Nat) : PeerList := ⟨LRU.new size⟩

/-- The method `add`. -/
def add (l : PeerList) (peer : JSVal) : Except JSError PeerList :=
  match serialize_peer peer with
  | .error e => .error e
  | .ok key => .ok ⟨l.data.set key peer⟩

/-- The method `remove`. -/
def remove (l : PeerList) (peer : JSVal) : Except JSError PeerList :=
  match serialize_peer peer with
  | .error e => .error e
  | .ok key => .ok ⟨l.data.remove key⟩

/-- The method `has`: `this.data.keys.indexOf(serialize_peer(peer)) != -1`. -/
def has (l : PeerList) (peer : JSVal) : Except JSError Bool :=
  match serialize_peer peer with
  | .error e => .error e
  | .ok key => .ok (decide (key ∈ l.data.keys))

/-- The expression `list.keys` on a `PeerList`: the class has the field `data`
and the methods `add`, `remove` and `has` only, so the read gives `undefined`
(here `none`) whatever the list holds. -/
def keys (_ : PeerList) : Option (List String) := none

end PeerList

/-! ## The registry of `PeerTalkSocket` -/

/-- The two fields of `PeerTalkSocket` that hold peers. -/
structure PeerTalkSocket where
  peers : PeerList
  pending : PeerList
deriving DecidableEq, Repr

/-- State at the end of a method call, and the exception that ended it. -/
structure Result where
  state : PeerTalkSocket
  error : Option JSError
deriving DecidableEq, Repr

namespace PeerTalkSocket

/-- The registry built by the constructor with peer limit `pl`. -/
def new (pl : Nat) : PeerTalkSocket := ⟨PeerList.new pl, PeerList.new pl⟩

/-- The expression `this.peerLimit`: the constructor keeps the limit in the
local `pl` and never assigns the property, so the read gives `undefined`. -/
def peerLimit (_ : PeerTalkSocket) : Scalar := .undefined

/-- The method `addUntrustedPeer`: `this.pending.add(normalize_peer(peer))`. -/
def addUntrustedPeer (s : PeerTalkSocket) (peer : JSVal) : Result :=
  match normalize_peer peer with
  | .error e => ⟨s, some e⟩
  | .ok n =>
    match s.pending.add n with
    | .error e => ⟨s, some e⟩
    | .ok l => ⟨{ s with pending := l }, none⟩

/-- The method `addPeer`: `this.peers.add(this.pending.has(peer) || peer)`.
`has` returns a boolean, so the value added is `true` when the peer is pending
and the peer itself otherwise. -/
def addPeer (s : PeerTalkSocket) (peer : JSVal) : Result :=
  match s.pending.has peer with
  | .error e => ⟨s, some e⟩
  | .ok h =>
    match s.peers.add (if h then .prim (.bool true) else peer) with
    | .error e => ⟨s, some e⟩
    | .ok l => ⟨{ s with peers := l }, none⟩

/-- The method `removePeer`: normalizes, then removes from `peers`, then from
`pending`. -/
def removePeer (s : PeerTalkSocket) (peer : JSVal) : Result :=
  match normalize_peer peer with
  | .error e => ⟨s, some e⟩
  | .ok n =>
    match s.peers.remove n with
    | .error e => ⟨s, some e⟩
    | .ok l₁ =>
      match s.pending.remove n with
      | .error e => ⟨{ s with peers := l₁ }, some e⟩
      | .ok l₂ => ⟨⟨l₁, l₂⟩, none⟩

/-- Lookup in the trusted set: `this.peers.has(peer)` is `true`. -/
def contains (s : PeerTalkSocket) (peer : JSVal) : Bool :=
  match s.peers.has peer with
  | .ok b => b
  | .error _ => false

/-- Lookup in the pending set: `this.pending.has(peer)` is `true`. -/
def isPending (s : PeerTalkSocket) (peer : JSVal) : Bool :=
  match s.pending.has peer with
  | .ok b => b
  | .error _ => false

end PeerTalkSocket

/-! ## The command classifier of the `'message'` listener -/

/-- The characters that `.` does not match: LF, CR, LS and PS. -/
def isLineTerminator (c : Char) : Bool :=
  c.toNat = 10 || c.toNat = 13 || c.toNat = 8232 || c.toNat = 8233

/-- The alternatives of the group `(p[io]ng|query|assert|peer)`, in the order
in which the matcher tries them (`p[io]ng` stands for `ping` and `pong`). -/
def alternatives : List String := ["ping", "pong", "query", "assert", "peer"]

/-- Whether the literal `tok` matches at the start of `s` under the flag `i`
(for the letters of the alternatives this is comparison up to ASCII case). -/
def matchesAt (tok : String) (s : List Char) : Bool :=
  (s.take tok.length).map Char.toLower == tok.data

/-- The text captured by the group when it is matched at the start of `s`. -/
def group (s : List Char) : Option (List Char) :=
  (alternatives.find? (fun tok => matchesAt tok s)).map (fun tok => s.take tok.length)

/-- The match of `/^.*?(p[io]ng|query|assert|peer)/i` on `s`, as the text of
group 1.  The lazy `.*?` is extended one character at a time, the group being
tried first at each position; it cannot be extended over a line terminator,
and `^` allows no other starting point. -/
def exec : List Char → Option (List Char)
  | [] => group []
  | c :: cs =>
    match group (c :: cs) with
    | some g => some g
    | none => if isLineTerminator c then none else exec cs

/-- The name of the event emitted for a message whose `q` property is `q`:
`q[1].toLowerCase()` when the expression matches, `"unknown"` otherwise. -/
def eventName (q : Prim) : String :=
  match exec q.toStr.data with
  | some g => String.mk (g.map Char.toLower)
  | none => "unknown"

/-! ## Messages, `send` and `sendRaw` -/

/-- A decoded message, through the properties the listeners read: `q`,
`count`, and `peers` (`some l` when `Array.isArray(data.peers)`). -/
structure Message where
  q : Prim
  count : Scalar
  peers : Option (List JSVal)
deriving DecidableEq, Repr

/-- The objects the listeners send: `{q: "pong", t: t}` and
`{v: v, q: "peers", p: p}`. -/
inductive OutMsg where
  | pong (t : Int)
  | peers (v : Int) (p : List String)
deriving DecidableEq, Repr

/-- A datagram handed to `socket.send`: the object whose encoding is the
payload, the destination port and the destination address. -/
structure Datagram where
  payload : OutMsg
  port : Int
  address : String
deriving DecidableEq, Repr

/-- What the listeners take from outside the repository: the clock
(`Date.now()`), the encoder (`encodes m` when `UBJSON.packToBuffer` fits `m`
into the 4096-byte buffer, `inlineCallback` when it calls back before it
returns) and the sampler (`_.sample`, whose first argument and whose result
are `none` when they are `undefined`). -/
structure Runtime where
  now : Int
  encodes : OutMsg → Bool
  inlineCallback : Bool
  sample : Option (List String) → Scalar → Option (List String)

/-- Outcome of `send`. -/
inductive SendOutcome where
  | sent (d : Datagram)
  | encodeError
  | threw (e : JSError)
deriving DecidableEq, Repr

/-- The method `sendRaw`, whose parameter `to` is `dest` here: destination
port `(to.port|0) || DEF_PORT` and destination address `to.address + ""`. -/
def sendRaw (val : OutMsg) (dest : JSVal) : Except JSError Datagram :=
  match dest with
  | .prim .undefined => .error .typeError
  | .prim .null => .error .typeError
  | .prim _ => .ok ⟨val, portOrDefault .undefined, Prim.undefined.toStr⟩
  | .obj a p _ => .ok ⟨val, portOrDefault p, a.toStr⟩

/-- The method `send`: an encoding failure is reported through the `'error'`
event, otherwise the encoding goes to `sendRaw`. -/
def send (rt : Runtime) (obj : OutMsg) (dest : JSVal) : SendOutcome :=
  if rt.encodes obj then
    match sendRaw obj dest with
    | .ok d => .sent d
    | .error e => .threw e
  else .encodeError

/-! ## The listeners of `PeerTalkClient` -/

/-- What handling one event did: the registry afterwards, the datagrams handed
to the socket, and the exception raised, if any. -/
structure Effects where
  state : PeerTalkSocket
  sent : List Datagram
  error : Option JSError
deriving DecidableEq, Repr

/-- A `send` followed by `this.addPeer(rinfo)`.  An exception of `sendRaw`
ends the listener before `addPeer` when the encoder calls back inline, and is
raised after the listener has finished otherwise. -/
def sendThenAdd (rt : Runtime) (s : PeerTalkSocket) (obj : OutMsg) (dest rinfo : JSVal) :
    Effects :=
  match send rt obj dest with
  | .sent d => ⟨(s.addPeer rinfo).state, [d], (s.addPeer rinfo).error⟩
  | .encodeError => ⟨(s.addPeer rinfo).state, [], (s.addPeer rinfo).error⟩
  | .threw e =>
    if rt.inlineCallback then ⟨s, [], some e⟩
    else ⟨(s.addPeer rinfo).state, [], some e⟩

/-- The `'ping'` listener: `this.send({q: "pong", t: Date.now()})`, with no
destination, then `this.addPeer(rinfo)`. -/
def onPing (rt : Runtime) (s : PeerTalkSocket) (rinfo : JSVal) : Effects :=
  sendThenAdd rt s (.pong rt.now) (.prim .undefined) rinfo

/-- The count computed by the `'boot'` listener from `data.count`: raised to
`1` when `p <= 0`, lowered to `this.peerLimit` when `p > this.peerLimit`. -/
def bootCount (s : PeerTalkSocket) (count : Scalar) : Scalar :=
  let p := if count.le (.num 0) then Scalar.num 1 else count
  if p.gt s.peerLimit then s.peerLimit else p

/-- The `'boot'` listener: replies to `rinfo` with
`Array.from(_.sample(this.peers.keys, p))`, then `this.addPeer(rinfo)`;
`Array.from(undefined)` throws. -/
def onBoot (rt : Runtime) (s : PeerTalkSocket) (data : Message) (rinfo : JSVal) : Effects :=
  match rt.sample s.peers.keys (bootCount s data.count) with
  | none => ⟨s, [], some .typeError⟩
  | some l => sendThenAdd rt s (.peers VERSION l) rinfo rinfo

/-- The loop of the `'peers'` listener: each entry is normalized and, when the
result is truthy, passed to `addUntrustedPeer`; an exception ends the loop. -/
def peersLoop (s : PeerTalkSocket) : List JSVal → Result
  | [] => ⟨s, none⟩
  | x :: xs =>
    match normalize_peer x with
    | .error e => ⟨s, some e⟩
    | .ok n =>
      if n.truthy then
        match (s.addUntrustedPeer n).error with
        | some e => ⟨(s.addUntrustedPeer n).state, some e⟩
        | none => peersLoop (s.addUntrustedPeer n).state xs
      else peersLoop s xs

/-- The `'peers'` listener: the loop over `data.peers` (over `[]` when it is
not an array), then `this.addPeer(rinfo)`. -/
def onPeers (s : PeerTalkSocket) (data : Message) (rinfo : JSVal) : Effects :=
  match (peersLoop s (data.peers.getD [])).error with
  | some e => ⟨(peersLoop s (data.peers.getD [])).state, [], some e⟩
  | none =>
    ⟨((peersLoop s (data.peers.getD [])).state.addPeer rinfo).state, [],
      ((peersLoop s (data.peers.getD [])).state.addPeer rinfo).error⟩

/-- The `'unknown'` listener: `this.removePeer(rinfo)`. -/
def onUnknown (s : PeerTalkSocket) (rinfo : JSVal) : Effects :=
  ⟨(s.removePeer rinfo).state, [], (s.removePeer rinfo).error⟩

/-- The call `this.emit(event, data, rinfo)` on a `PeerTalkClient`: listeners
are registered for `'ping'`, `'boot'`, `'peers'` and `'unknown'`; any other
event has none and nothing happens. -/
def emit (rt : Runtime) (s : PeerTalkSocket) (event : String) (data : Message)
    (rinfo : JSVal) : Effects :=
  if event = "ping" then onPing rt s rinfo
  else if event = "boot" then onBoot rt s data rinfo
  else if event = "peers" then onPeers s data rinfo
  else if event = "unknown" then onUnknown s rinfo
  else ⟨s, [], none⟩

/-- The `'message'` listener of the socket once the datagram is decoded: the
command is classified and the event of that name is emitted. -/
def onMessage (rt : Runtime) (s : PeerTalkSocket) (data : Message) (rinfo : JSVal) :
    Effects :=
  emit rt s (eventName data.q) data rinfo

/-! ## Inputs, call sequences and predicates used in the statements -/

/-- The endpoint `{address: "::1", port: 4305}`. -/
def loopback : JSVal := .obj (.str "::1") (.num 4305) []

/-- A call of one of the three registry methods. -/
inductive Call where
  | addUntrustedPeer (peer : JSVal)
  | addPeer (peer : JSVal)
  | removePeer (peer : JSVal)
deriving DecidableEq, Repr

/-- The registry after a call (also when the call ended in an exception). -/
def PeerTalkSocket.call (s : PeerTalkSocket) : Call → PeerTalkSocket
  | .addUntrustedPeer peer => (s.addUntrustedPeer peer).state
  | .addPeer peer => (s.addPeer peer).state
  | .removePeer peer => (s.removePeer peer).state

/-- The registry after a sequence of calls. -/
def PeerTalkSocket.run (s : PeerTalkSocket) : List Call → PeerTalkSocket
  | [] => s
  | c :: cs => (s.call c).run cs

/-- The endpoint `{address: "2001:db8::1", port: 4305}`. -/
def gossiped : JSVal := .obj (.str "2001:db8::1") (.num 4305) []

/-- A sender as `dgram` reports it:
`{address: "2001:db8::2", family: "IPv6", port: 4305, size: 64}`. -/
def sender : JSVal :=
  .obj (.str "2001:db8::2") (.num 4305) [("family", .str "IPv6"), ("size", .num 64)]

/-- The endpoint `{address: "::1"}`, which has no port. -/
def portless : JSVal := .obj (.str "::1") .undefined []

/-- Whether a value is an object whose `address` property is a string. -/
def JSVal.hasStringAddress : JSVal → Bool
  | .obj (.str _) _ _ => true
  | _ => false

/-- The vocabulary of command tokens, as the interface table lists it. -/
def vocabulary : List String := ["ping", "pong", "query", "assert", "peer"]

/-- The text `q` is `pre`, then an occurrence of the token `tok` up to case,
then some rest. -/
def OccursAfter (tok : String) (pre q : List Char) : Prop :=
  ∃ mid post, q = pre ++ mid ++ post ∧ mid.map Char.toLower = tok.data

/-- The text contains a token of the vocabulary as a substring, compared
without regard to case. -/
def ContainsToken (q : List Char) : Prop :=
  ∃ tok ∈ vocabulary, ∃ pre, OccursAfter tok pre q

/-- The text contains a token of the vocabulary as a substring, compared
without regard to case, with no line terminator before the occurrence. -/
def ContainsTokenOnFirstLine (q : List Char) : Prop :=
  ∃ tok ∈ vocabulary, ∃ pre, OccursAfter tok pre q ∧ ∀ c ∈ pre, isLineTerminator c = false

/-- The number read back from a run of decimal digits, continuing from `acc`. -/
def digitsValue (acc : Nat) (cs : List Char) : Nat :=
  cs.foldl (fun a c => 10 * a + (c.toNat - 48)) acc

/-- The method `add` called on each endpoint of a list, in order. -/
def PeerList.addAll (l : PeerList) : List JSVal → Except JSError PeerList
  | [] => .ok l
  | e :: es =>
    match l.add e with
    | .error err => .error err
    | .ok l' => l'.addAll es

/-- The key of a value, `""` standing in where `serialize_peer` throws. -/
def keyOf (e : JSVal) : String :=
  match serialize_peer e with
  | .ok key => key
  | .error _ => ""

/-- The cache entry that `add` files for a value. -/
def entryOf (e : JSVal) : String × JSVal := (keyOf e, e)

/-- Whether `add` files a value under the key of its normal form:
`normalize_peer` accepts it, and `serialize_peer` gives the value and its
normal form the same key (a string address and a port that is already a
non-zero 32-bit integer, as for every sender that `dgram` reports). -/
def JSVal.filedAsNormal (e : JSVal) : Bool :=
  match normalize_peer e with
  | .ok n => n.hasStringAddress && decide (serialize_peer e = serialize_peer n)
  | .error _ => false

/-- Whether a call, made in state `s`, keeps the two sets apart by itself:
`addUntrustedPeer` is not called on an endpoint whose normal form is in the
trusted set, and `addPeer` is called only on an endpoint that is filed under
the key of its normal form and is not in the pending set. -/
def Call.disciplined (s : PeerTalkSocket) : Call → Bool
  | .addUntrustedPeer peer =>
    match normalize_peer peer with
    | .ok n => !s.contains n
    | .error _ => true
  | .addPeer peer => peer.filedAsNormal && !s.isPending peer
  | .removePeer _ => true

/-- Whether every call of a sequence started in state `s` is disciplined at
the moment it is made. -/
def PeerTalkSocket.disciplinedRun (s : PeerTalkSocket) : List Call → Bool
  | [] => true
  | c :: cs => c.disciplined s && (s.call c).disciplinedRun cs

/-- The key of some endpoint in normal form. -/
def NormalKey (k : String) : Prop :=
  ∃ n, normalize_peer n = .ok n ∧ serialize_peer n = .ok k

/-- No pending key is a trusted key, and every key of either set is the key
of an endpoint in normal form. -/
def Apart (s : PeerTalkSocket) : Prop :=
  (∀ k ∈ s.pending.data.keys, k ∉ s.peers.data.keys) ∧
  (∀ k ∈ s.pending.data.keys, NormalKey k) ∧
  (∀ k ∈ s.peers.data.keys, NormalKey k)

/-! ## Lemmas on the cache -/

theorem LRU.mem_keys_set (c : LRU) (key : String) (value : JSVal) :
    key ∈ (c.set key value).keys := by
  unfold LRU.set
  split_ifs <;> simp [LRU.keys]

theorem LRU.mem_keys_of_mem_others {c : LRU} {key k : String}
    (h : k ∈ (c.others key).map Prod.fst) : k ∈ c.keys ∧ k ≠ key := by
  simp only [LRU.others, List.mem_map, List.mem_filter] at h
  obtain ⟨e, ⟨he, hne⟩, rfl⟩ := h
  exact ⟨List.mem_map.mpr ⟨e, he, rfl⟩, by simpa using hne⟩

theorem LRU.eq_or_mem_of_mem_keys_set {c : LRU} {key k : String} {value : JSVal}
    (h : k ∈ (c.set key value).keys) : k = key ∨ k ∈ c.keys := by
  unfold LRU.set at h
  split_ifs at h
  · simp only [LRU.keys, List.map_append, List.mem_append, List.map_cons, List.map_nil,
      List.mem_singleton] at h
    rcases h with h | h
    · exact Or.inr (LRU.mem_keys_of_mem_others h).1
    · exact Or.inl h
  · simp only [LRU.keys, List.map_append, List.mem_append, List.map_cons, List.map_nil,
      List.mem_singleton, List.mem_map] at h
    rcases h with ⟨e, he, rfl⟩ | h
    · exact Or.inr (List.mem_map.mpr ⟨e, List.mem_of_mem_tail he, rfl⟩)
    · exact Or.inl h
  · simp only [LRU.keys, List.map_append, List.mem_append, List.map_cons, List.map_nil,
      List.mem_singleton] at h
    rcases h with h | h
    · exact Or.inr h
    · exact Or.inl h

theorem LRU.mem_keys_remove {c : LRU} {key k : String} (h : k ∈ (c.remove key).keys) :
    k ∈ c.keys ∧ k ≠ key :=
  LRU.mem_keys_of_mem_others h

/-! ## Lemmas on decimal numerals -/

theorem isDigit_digitChar (d : Nat) (h : d < 10) : (Nat.digitChar d).isDigit = true := by
  interval_cases d <;> decide

theorem isDigit_of_mem_toDigitsCore (f : Nat) :
    ∀ (n : Nat) (ds : List Char), (∀ c ∈ ds, c.isDigit = true) →
      ∀ c ∈ Nat.toDigitsCore 10 f n ds, c.isDigit = true := by
  induction f with
  | zero => intro n ds h c hc; exact h c (by simpa [Nat.toDigitsCore] using hc)
  | succ f ih =>
    intro n ds h c hc
    have hd : ∀ x ∈ Nat.digitChar (n % 10) :: ds, x.isDigit = true := by
      intro x hx
      rcases List.mem_cons.mp hx with rfl | hx
      · exact isDigit_digitChar _ (Nat.mod_lt _ (by decide))
      · exact h x hx
    simp only [Nat.toDigitsCore] at hc
    split_ifs at hc
    · exact hd c hc
    · exact ih _ _ hd c hc

theorem toDigitsCore_ne_nil (f : Nat) :
    ∀ (n : Nat) (ds : List Char), Nat.toDigitsCore 10 (f + 1) n ds ≠ [] := by
  induction f with
  | zero => intro n ds; simp [Nat.toDigitsCore]
  | succ f ih =>
    intro n ds
    rw [Nat.toDigitsCore]
    split_ifs
    · simp
    · exact ih _ _

/-- The decimal numeral of a natural number is a non-empty run of digits. -/
theorem repr_digits (n : Nat) :
    (Nat.repr n).data ≠ [] ∧ ∀ c ∈ (Nat.repr n).data, c.isDigit = true :=
  ⟨toDigitsCore_ne_nil n n [], isDigit_of_mem_toDigitsCore _ n [] (by simp)⟩

/-- The numeral of an integer ends in a digit. -/
theorem int_toString_getLast (n : Int) :
    ∃ c, (toString n).data.getLast? = some c ∧ c.isDigit = true := by
  have key : ∀ (m : Nat) (pre : List Char),
      ∃ c, (pre ++ (Nat.repr m).data).getLast? = some c ∧ c.isDigit = true := by
    intro m pre
    obtain ⟨hne, hd⟩ := repr_digits m
    refine ⟨(Nat.repr m).data.getLast hne, ?_, hd _ (List.getLast_mem hne)⟩
    rw [List.getLast?_append_of_ne_nil _ hne, List.getLast?_eq_getLast _ hne]
  cases n with
  | ofNat m => simpa using key m []
  | negSucc m => exact key (m + 1) ['-']

/-! ## C1: promotion -/

/-- C1, as stated, fails: in the registry obtained from an empty one by
`addUntrustedPeer(e)`, the endpoint `e = {address: "::1", port: 4305}` is
pending; after `addPeer(e)` the trusted lookup of `e` is false and `e` is
still pending. -/
theorem C1_counterexample :
    ((PeerTalkSocket.new 256).addUntrustedPeer loopback).state.isPending loopback = true ∧
    ¬ ((((PeerTalkSocket.new 256).addUntrustedPeer loopback).state.addPeer loopback).state.contains
          loopback = true ∧
        (((PeerTalkSocket.new 256).addUntrustedPeer loopback).state.addPeer loopback).state.isPending
          loopback = false) := by
  decide

/-- C1, amended: for every registry state and every endpoint `e` with a string
address, `addPeer(e)` leaves the pending set as it was; and when `e` is not in
the pending set, after `addPeer(e)` the trusted lookup of `e` is true and `e`
is absent from the pending set. -/
theorem C1_addPeer_of_not_pending (s : PeerTalkSocket) (a : String) (p : Scalar)
    (rest : List (String × Prim)) :
    (s.addPeer (.obj (.str a) p rest)).state.pending = s.pending ∧
    (s.isPending (.obj (.str a) p rest) = false →
      (s.addPeer (.obj (.str a) p rest)).state.contains (.obj (.str a) p rest) = true ∧
      (s.addPeer (.obj (.str a) p rest)).state.isPending (.obj (.str a) p rest) = false) := by
  constructor
  · cases hb : decide (Prim.toStr (.str a) ++ NUL ++ p.toStr ∈ s.pending.data.keys) <;>
      simp [PeerTalkSocket.addPeer, PeerList.has, PeerList.add, serialize_peer, hb]
  · intro h
    have hk : decide (Prim.toStr (.str a) ++ NUL ++ p.toStr ∈ s.pending.data.keys) = false := by
      simpa [PeerTalkSocket.isPending, PeerList.has, serialize_peer] using h
    have hst : (s.addPeer (.obj (.str a) p rest)).state =
        { s with peers := ⟨s.peers.data.set (Prim.toStr (.str a) ++ NUL ++ p.toStr)
            (.obj (.str a) p rest)⟩ } := by
      simp [PeerTalkSocket.addPeer, PeerList.has, PeerList.add, serialize_peer, hk]
    rw [hst]
    constructor
    · simp [PeerTalkSocket.contains, PeerList.has, serialize_peer, LRU.mem_keys_set]
    · simpa [PeerTalkSocket.isPending, PeerList.has, serialize_peer] using hk

/-- C1, amended, at the empty registry and `{address: "::1", port: 4305}`. -/
theorem C1_addPeer_of_not_pending_witness :
    (PeerTalkSocket.new 256).isPending (.obj (.str "::1") (.num 4305) []) = false ∧
    ((PeerTalkSocket.new 256).addPeer (.obj (.str "::1") (.num 4305) [])).state.pending =
      (PeerTalkSocket.new 256).pending ∧
    ((PeerTalkSocket.new 256).addPeer (.obj (.str "::1") (.num 4305) [])).state.contains
      (.obj (.str "::1") (.num 4305) []) = true ∧
    ((PeerTalkSocket.new 256).addPeer (.obj (.str "::1") (.num 4305) [])).state.isPending
      (.obj (.str "::1") (.num 4305) []) = false :=
  ⟨by decide, (C1_addPeer_of_not_pending (PeerTalkSocket.new 256) "::1" (.num 4305) []).1,
    (C1_addPeer_of_not_pending (PeerTalkSocket.new 256) "::1" (.num 4305) []).2 (by decide)⟩

/-! ## C3: a peer-list message -/

/-- C3, on the code: a message whose command string is `"peers"` is classified
as `peer`, an event for which no listener is registered, so receiving it
changes nothing; after `{q: "peers", peers: [{address: "2001:db8::1",
port: 4305}]}` from a sender, that endpoint is not pending and the sender is
not trusted. -/
theorem C3_peers_message_unhandled (rt : Runtime) (s : PeerTalkSocket) (count : Scalar)
    (peers : Option (List JSVal)) (rinfo : JSVal) :
    eventName (.str "peers") = "peer" ∧
    onMessage rt s ⟨.str "peers", count, peers⟩ rinfo = ⟨s, [], none⟩ ∧
    (onMessage rt (PeerTalkSocket.new 256) ⟨.str "peers", .undefined, some [gossiped]⟩
      sender).state.isPending gossiped = false ∧
    (onMessage rt (PeerTalkSocket.new 256) ⟨.str "peers", .undefined, some [gossiped]⟩
      sender).state.contains sender = false := by
  have h : eventName (.str "peers") = "peer" := by decide
  have h2 : ∀ (s : PeerTalkSocket) (data : Message) (rinfo : JSVal),
      emit rt s "peer" data rinfo = ⟨s, [], none⟩ := by
    intro s data rinfo
    simp [emit]
  refine ⟨h, ?_, ?_, ?_⟩
  · simp only [onMessage, h, h2]
  · simp only [onMessage, h, h2]; decide
  · simp only [onMessage, h, h2]; decide

/-! ## C4: a ping -/

/-- C4, on the code: the `'ping'` listener calls `send` without a destination,
so `sendRaw` never hands a datagram to the socket: handling a ping sends
nothing, whatever the registry, the sender, the clock and the encoder. -/
theorem C4_ping_sends_nothing (rt : Runtime) (s : PeerTalkSocket) (count : Scalar)
    (peers : Option (List JSVal)) (rinfo : JSVal) :
    (onPing rt s rinfo).sent = [] ∧
    (onMessage rt s ⟨.str "ping", count, peers⟩ rinfo).sent = [] := by
  have h : eventName (.str "ping") = "ping" := by decide
  have h1 : (onPing rt s rinfo).sent = [] := by
    unfold onPing sendThenAdd send
    cases rt.encodes (.pong rt.now) <;> cases rt.inlineCallback <;> simp [sendRaw]
  refine ⟨h1, ?_⟩
  simp only [onMessage, h, emit, if_true]
  exact h1

/-! ## C5: removal -/

/-- C5, on the code: `{address: "::1"}` promoted by `addPeer` is filed under
the key of the endpoint as given, while `removePeer` removes the key of the
normalized endpoint; after `removePeer` of the same endpoint, which ends
without an exception, the trusted lookup of it is still true. -/
theorem C5_removePeer_misses_promoted :
    ((PeerTalkSocket.new 256).addPeer portless).state.contains portless = true ∧
    (((PeerTalkSocket.new 256).addPeer portless).state.removePeer portless).error = none ∧
    (((PeerTalkSocket.new 256).addPeer portless).state.removePeer portless).state.contains
      portless = true := by
  decide

/-! ## C6: the classifier -/

theorem group_eq_some {s g : List Char} (h : group s = some g) :
    ∃ tok ∈ vocabulary, g.map Char.toLower = tok.data ∧ ∃ post, s = g ++ post := by
  unfold group at h
  cases hf : alternatives.find? (fun tok => matchesAt tok s) with
  | none => rw [hf] at h; cases h
  | some tok =>
    rw [hf] at h
    simp only [Option.map_some', Option.some.injEq] at h
    subst h
    refine ⟨tok, List.mem_of_find?_eq_some hf, ?_, s.drop tok.length, ?_⟩
    · have := List.find?_some hf
      simpa [matchesAt] using this
    · exact (List.take_append_drop _ _).symm

theorem group_ne_none {tok : String} (htok : tok ∈ vocabulary) {mid : List Char}
    (hmid : mid.map Char.toLower = tok.data) (post : List Char) :
    group (mid ++ post) ≠ none := by
  have hlen : tok.length = mid.length := by
    have := congrArg List.length hmid
    rw [List.length_map] at this
    exact this.symm
  have hm : matchesAt tok (mid ++ post) = true := by
    simp [matchesAt, hlen, hmid]
  intro h
  unfold group at h
  rw [Option.map_eq_none', List.find?_eq_none] at h
  exact h tok htok hm

theorem exec_eq_some {s : List Char} : ∀ {g : List Char}, exec s = some g →
    ∃ tok ∈ vocabulary, g.map Char.toLower = tok.data ∧
      ∃ pre post, s = pre ++ g ++ post ∧ ∀ c ∈ pre, isLineTerminator c = false := by
  induction s with
  | nil =>
    intro g h
    have h0 : exec [] = none := by decide
    rw [h0] at h
    cases h
  | cons c cs ih =>
    intro g h
    unfold exec at h
    cases hg : group (c :: cs) with
    | some g' =>
      rw [hg] at h
      simp only [Option.some.injEq] at h
      subst h
      obtain ⟨tok, htok, hmap, post, hpost⟩ := group_eq_some hg
      exact ⟨tok, htok, hmap, [], post, by simpa using hpost, by simp⟩
    | none =>
      rw [hg] at h
      simp only at h
      split_ifs at h with hlt
      obtain ⟨tok, htok, hmap, pre, post, hs, hpre⟩ := ih h
      refine ⟨tok, htok, hmap, c :: pre, post, by simp [hs], ?_⟩
      intro x hx
      rcases List.mem_cons.mp hx with rfl | hx
      · simpa using hlt
      · exact hpre x hx

theorem exec_ne_none {tok : String} (htok : tok ∈ vocabulary) {mid : List Char}
    (hmid : mid.map Char.toLower = tok.data) (post : List Char) :
    ∀ pre : List Char, (∀ c ∈ pre, isLineTerminator c = false) →
      exec (pre ++ mid ++ post) ≠ none := by
  have hbase : exec (mid ++ post) ≠ none := by
    have hg := group_ne_none htok hmid post
    cases hmp : mid ++ post with
    | nil =>
      rw [hmp] at hg
      exact absurd (by decide : group [] = none) hg
    | cons c cs =>
      rw [hmp] at hg
      unfold exec
      cases hg' : group (c :: cs) with
      | none => exact absurd hg' hg
      | some g => simp
  intro pre
  induction pre with
  | nil => intro _; simpa using hbase
  | cons c pre ih =>
    intro hpre
    have hc : isLineTerminator c = false := hpre c (List.mem_cons_self _ _)
    have ih' := ih (fun x hx => hpre x (List.mem_cons_of_mem _ hx))
    simp only [List.cons_append]
    unfold exec
    cases group (c :: (pre ++ mid ++ post)) with
    | some g => simp
    | none => simpa [hc, List.append_assoc] using ih'

/-- C6, as stated, fails: the command string made of a line feed followed by
`ping` contains the token `ping`, yet its event is `unknown`. -/
theorem C6_counterexample :
    ¬ (eventName (.str "\nping") ∈ vocabulary ↔ ContainsToken ("\nping").data) := by
  intro h
  have h1 : eventName (.str "\nping") ∉ vocabulary := by decide
  exact h1 (h.mpr ⟨"ping", by decide, [Char.ofNat 10], "ping".data, [], by decide, by decide⟩)

/-- C6, amended: for every declared command string `q`, the classifier emits
the event of a known command (`ping`, `pong`, `query`, `assert`, `peer`) if and
only if `q` contains one of those tokens as a substring, compared without
regard to case, with no line terminator before the occurrence; otherwise it
emits `unknown`. -/
theorem C6_classifier (q : String) :
    (eventName (.str q) ∈ vocabulary ↔ ContainsTokenOnFirstLine q.data) ∧
    (eventName (.str q) ∈ vocabulary ∨ eventName (.str q) = "unknown") := by
  have hq : (Prim.str q).toStr.data = q.data := rfl
  cases he : exec q.data with
  | none =>
    have hn : eventName (.str q) = "unknown" := by simp [eventName, hq, he]
    refine ⟨⟨fun h => ?_, fun h => ?_⟩, Or.inr hn⟩
    · rw [hn] at h; exact absurd h (by decide)
    · obtain ⟨tok, htok, pre, ⟨mid, post, hs, hmid⟩, hpre⟩ := h
      rw [hs] at he
      exact absurd he (exec_ne_none htok hmid post pre hpre)
  | some g =>
    obtain ⟨tok, htok, hmap, pre, post, hs, hpre⟩ := exec_eq_some he
    have hn : eventName (.str q) = tok := by
      simp [eventName, hq, he, hmap]
    rw [hn]
    exact ⟨⟨fun _ => ⟨tok, htok, pre, ⟨g, post, hs, hmap⟩, hpre⟩, fun _ => htok⟩, Or.inl htok⟩

/-! ## C7: a boot request -/

/-- C7, on the code: a message whose command string is `"boot"` is classified
as `unknown`, so no reply is sent; and the `'boot'` listener itself samples
`this.peers.keys`, which is `undefined`, and compares the count with
`this.peerLimit`, which is `undefined`: the payloads it sends are the same
whatever the trusted set holds, and a count of one million is not lowered. -/
theorem C7_boot_reply_ignores_registry (rt : Runtime) (s s' : PeerTalkSocket) (data : Message)
    (peers : Option (List JSVal)) (count : Scalar) (rinfo : JSVal) :
    (onMessage rt s ⟨.str "boot", count, peers⟩ rinfo).sent = [] ∧
    (onBoot rt s data rinfo).sent = (onBoot rt s' data rinfo).sent ∧
    bootCount s (.num 1000000) = .num 1000000 := by
  have h : eventName (.str "boot") = "unknown" := by decide
  refine ⟨?_, ?_, by simp [bootCount, PeerTalkSocket.peerLimit, Scalar.le, Scalar.gt,
    Scalar.toNumber]⟩
  · simp only [onMessage, h, emit, onUnknown]
    simp
  · simp only [onBoot, bootCount, PeerTalkSocket.peerLimit, PeerList.keys]
    cases rt.sample none (if (if data.count.le (.num 0) then Scalar.num 1 else data.count).gt
        .undefined then .undefined else (if data.count.le (.num 0) then Scalar.num 1
          else data.count)) with
    | none => rfl
    | some l =>
      simp only [sendThenAdd]
      cases send rt (.peers VERSION l) rinfo with
      | sent d => rfl
      | encodeError => rfl
      | threw e => cases rt.inlineCallback <;> rfl

/-! ## C8: rejected endpoints -/

/-- C8, as stated, fails: the endpoint `{address: ""}` has the empty string as
its address, yet `addUntrustedPeer` accepts it and the pending set changes. -/
theorem C8_counterexample :
    ((PeerTalkSocket.new 256).addUntrustedPeer (.obj (.str "") .undefined [])).error = none ∧
    ((PeerTalkSocket.new 256).addUntrustedPeer (.obj (.str "") .undefined [])).state ≠
      PeerTalkSocket.new 256 ∧
    ((PeerTalkSocket.new 256).addUntrustedPeer (.obj (.str "") .undefined [])).state.isPending
      (.obj (.str "") (.num 4305) []) = true := by
  decide

/-- C8, amended: for every registry state and every endpoint whose address is
missing or not a string, `addUntrustedPeer` inserts nothing: the pending set
and the trusted set are left unchanged. -/
theorem C8_addUntrustedPeer_rejects (s : PeerTalkSocket) (peer : JSVal)
    (h : peer.hasStringAddress = false) : (s.addUntrustedPeer peer).state = s := by
  cases peer with
  | prim p =>
    cases p <;> simp [PeerTalkSocket.addUntrustedPeer, normalize_peer, PeerList.add,
      serialize_peer]
  | obj a p r =>
    cases a <;> simp_all [JSVal.hasStringAddress, PeerTalkSocket.addUntrustedPeer,
      normalize_peer, Prim.isString, PeerList.add, serialize_peer]

/-- C8, amended, at `{address: 42}` and a registry holding one pending
endpoint. -/
theorem C8_addUntrustedPeer_rejects_witness :
    JSVal.hasStringAddress (.obj (.num 42) .undefined []) = false ∧
    (((PeerTalkSocket.new 256).addUntrustedPeer loopback).state.addUntrustedPeer
      (.obj (.num 42) .undefined [])).state =
      ((PeerTalkSocket.new 256).addUntrustedPeer loopback).state :=
  ⟨by decide, C8_addUntrustedPeer_rejects _ _ (by decide)⟩

/-! ## C9: the peer-list listener -/

/-- C9, on the code: a `null` entry makes `normalize_peer` throw when it reads
`peer.address`, which ends the `'peers'` listener: with a leading `null` the
registry is left as it was and the sender is not promoted; with a `null`
after a valid entry, the entries after it are never added. -/
theorem C9_null_entry_throws (s : PeerTalkSocket) (q : Prim) (count : Scalar)
    (tail : List JSVal) (rinfo : JSVal) :
    onPeers s ⟨q, count, some (.prim .null :: tail)⟩ rinfo = ⟨s, [], some .typeError⟩ ∧
    (onPeers (PeerTalkSocket.new 256)
      ⟨.str "peers", .undefined, some [loopback, .prim .null, gossiped]⟩ sender).error =
        some .typeError ∧
    (onPeers (PeerTalkSocket.new 256)
      ⟨.str "peers", .undefined, some [loopback, .prim .null, gossiped]⟩ sender).state.isPending
        gossiped = false ∧
    (onPeers (PeerTalkSocket.new 256)
      ⟨.str "peers", .undefined, some [loopback, .prim .null, gossiped]⟩ sender).state.contains
        sender = false := by
  refine ⟨?_, by decide, by decide, by decide⟩
  simp [onPeers, peersLoop, normalize_peer]

/-! ## C10: promotion and normal forms -/

/-- C10, on the code: `addPeer` does not normalize.  For `{address: "::1"}`,
whose normal form is `{address: "::1", port: 4305}`, the two promotions give
different registries, filed under the keys `"::1\0undefined"` and
`"::1\04305"`; and a sender reported by `dgram` is stored with its `family`
and `size`, not as its normal form. -/
theorem C10_addPeer_does_not_normalize :
    normalize_peer portless = .ok loopback ∧
    ((PeerTalkSocket.new 256).addPeer portless).state ≠
      ((PeerTalkSocket.new 256).addPeer loopback).state ∧
    ((PeerTalkSocket.new 256).addPeer portless).state.peers.data.keys =
      ["::1" ++ NUL ++ "undefined"] ∧
    ((PeerTalkSocket.new 256).addPeer loopback).state.peers.data.keys =
      ["::1" ++ NUL ++ "4305"] ∧
    ((PeerTalkSocket.new 256).addPeer sender).state.peers.data.entries.map Prod.snd =
      [sender] ∧
    normalize_peer sender ≠ .ok sender := by
  decide

/-! ## Lemmas on keys -/

theorem digitChar_value (d : Nat) (h : d < 10) : (Nat.digitChar d).toNat - 48 = d := by
  interval_cases d <;> decide

theorem digitsValue_toDigitsCore (f : Nat) :
    ∀ (n : Nat) (ds : List Char), n < f →
      digitsValue 0 (Nat.toDigitsCore 10 f n ds) = digitsValue n ds := by
  induction f with
  | zero => intro n ds h; omega
  | succ f ih =>
    intro n ds h
    have hd : (Nat.digitChar (n % 10)).toNat - 48 = n % 10 :=
      digitChar_value _ (Nat.mod_lt _ (by decide))
    rw [Nat.toDigitsCore]
    split_ifs with h0
    · have hn : n % 10 = n := by omega
      rw [hn] at hd
      simp only [digitsValue, List.foldl_cons, Nat.mul_zero, Nat.zero_add, hn, hd]
    · have hlt : n / 10 < f := by omega
      rw [ih _ _ hlt]
      have hn : 10 * (n / 10) + n % 10 = n := by omega
      simp only [digitsValue, List.foldl_cons, hd, hn]

theorem digitsValue_repr (n : Nat) : digitsValue 0 (Nat.repr n).data = n := by
  have := digitsValue_toDigitsCore (n + 1) n [] (Nat.lt_succ_self n)
  simpa [digitsValue] using this

theorem repr_injective {m n : Nat} (h : Nat.repr m = Nat.repr n) : m = n := by
  have := congrArg (fun s => digitsValue 0 s.data) h
  simpa [digitsValue_repr] using this

theorem int_toString_injective {p q : Int} (h : toString p = toString q) : p = q := by
  have hneg : ∀ (m k : Nat), toString (Int.ofNat m) ≠ toString (Int.negSucc k) := by
    intro m k hmk
    have hd : (Nat.repr m).data = '-' :: (Nat.repr (k + 1)).data := congrArg String.data hmk
    have hmem : '-' ∈ (Nat.repr m).data := by rw [hd]; exact List.mem_cons_self _ _
    exact absurd ((repr_digits m).2 _ hmem) (by decide)
  cases p with
  | ofNat m =>
    cases q with
    | ofNat k => exact congrArg Int.ofNat (repr_injective h)
    | negSucc k => exact absurd h (hneg m k)
  | negSucc m =>
    cases q with
    | ofNat k => exact absurd h.symm (hneg k m)
    | negSucc k =>
      have hd : '-' :: (Nat.repr (m + 1)).data = '-' :: (Nat.repr (k + 1)).data :=
        congrArg String.data h
      have hr : Nat.repr (m + 1) = Nat.repr (k + 1) := String.ext (List.cons.inj hd).2
      have := repr_injective hr
      have hmk : m = k := by omega
      rw [hmk]

/-- The numeral of an integer holds no NUL character. -/
theorem int_toString_no_nul (n : Int) : Char.ofNat 0 ∉ (toString n).data := by
  have key : ∀ m : Nat, Char.ofNat 0 ∉ (Nat.repr m).data :=
    fun m hmem => absurd ((repr_digits m).2 _ hmem) (by decide)
  cases n with
  | ofNat m => exact key m
  | negSucc m =>
    intro hmem
    have hd : (toString (Int.negSucc m)).data = '-' :: (Nat.repr (m + 1)).data := rfl
    rw [hd] at hmem
    rcases List.mem_cons.mp hmem with h | h
    · exact absurd h (by decide)
    · exact key _ h

theorem append_cons_cancel {α : Type} {x : α} :
    ∀ {l₁ l₂ r₁ r₂ : List α}, x ∉ l₁ → x ∉ l₂ → l₁ ++ x :: r₁ = l₂ ++ x :: r₂ →
      l₁ = l₂ ∧ r₁ = r₂ := by
  intro l₁
  induction l₁ with
  | nil =>
    intro l₂ r₁ r₂ _ h₂ h
    cases l₂ with
    | nil => exact ⟨rfl, (List.cons.inj h).2⟩
    | cons b l₂ =>
      have := (List.cons.inj h).1
      exact absurd (this ▸ List.mem_cons_self _ _) h₂
  | cons a l₁ ih =>
    intro l₂ r₁ r₂ h₁ h₂ h
    cases l₂ with
    | nil =>
      have := (List.cons.inj h).1
      exact absurd (this ▸ List.mem_cons_self _ _) h₁
    | cons b l₂ =>
      obtain ⟨hab, ht⟩ := List.cons.inj h
      obtain ⟨hl, hr⟩ := ih (fun hm => h₁ (List.mem_cons_of_mem _ hm))
        (fun hm => h₂ (List.mem_cons_of_mem _ hm)) ht
      exact ⟨by rw [hab, hl], hr⟩

/-- The key of a string address and an integer port determines both. -/
theorem key_injective {a b : String} {p q : Int}
    (h : a ++ NUL ++ toString p = b ++ NUL ++ toString q) : a = b ∧ p = q := by
  have hd : a.data ++ Char.ofNat 0 :: (toString p).data =
      b.data ++ Char.ofNat 0 :: (toString q).data := by
    have := congrArg String.data h
    simpa [NUL, String.data_append] using this
  have hr := congrArg List.reverse hd
  simp only [List.reverse_append, List.reverse_cons, List.append_assoc, List.singleton_append]
    at hr
  obtain ⟨h1, h2⟩ := append_cons_cancel
    (by simpa using int_toString_no_nul p) (by simpa using int_toString_no_nul q) hr
  exact ⟨String.ext (List.reverse_injective h2),
    int_toString_injective (String.ext (List.reverse_injective h1))⟩

/-! ## C15: the key of a normalized endpoint -/

/-- C15: the registry key is injective on normalized endpoints: for all
string addresses `a`, `b` (NUL allowed in them) and integer ports `p`, `q`,
`serialize_peer` gives `{address: a, port: p}` and `{address: b, port: q}` the
same key if and only if `a = b` and `p = q`. -/
theorem C15_serialize_peer_injective (a b : String) (p q : Int) :
    serialize_peer (.obj (.str a) (.num p) []) = serialize_peer (.obj (.str b) (.num q) []) ↔
      a = b ∧ p = q := by
  constructor
  · intro h
    simp only [serialize_peer, Prim.toStr, Scalar.toStr, Except.ok.injEq] at h
    exact key_injective h
  · rintro ⟨rfl, rfl⟩
    rfl

/-! ## Lemmas on ports -/

theorem wrapInt32_of_range {n : Int} (h₁ : -2147483648 ≤ n) (h₂ : n < 2147483648) :
    wrapInt32 n = n := by
  unfold wrapInt32
  omega

theorem toInt32_range (p : Scalar) :
    -2147483648 ≤ p.toInt32 ∧ p.toInt32 < 2147483648 := by
  cases p with
  | undefined => decide
  | null => decide
  | bool b => cases b <;> decide
  | num n =>
    simp only [Scalar.toInt32, wrapInt32]
    omega

theorem portOrDefault_ne_zero (p : Scalar) : portOrDefault p ≠ 0 := by
  unfold portOrDefault
  split_ifs with h
  · decide
  · exact h

theorem portOrDefault_range (p : Scalar) :
    -2147483648 ≤ portOrDefault p ∧ portOrDefault p < 2147483648 := by
  unfold portOrDefault
  split_ifs with h
  · decide
  · exact toInt32_range p

theorem portOrDefault_idem (p : Scalar) :
    portOrDefault (.num (portOrDefault p)) = portOrDefault p := by
  have hr := portOrDefault_range p
  have h0 := portOrDefault_ne_zero p
  have hw : wrapInt32 (portOrDefault p) = portOrDefault p := wrapInt32_of_range hr.1 hr.2
  show (if wrapInt32 (portOrDefault p) = 0 then DEF_PORT else wrapInt32 (portOrDefault p)) = _
  rw [hw, if_neg h0]

/-! ## C11: normalizing twice -/

/-- C11, as stated, fails: `{address: 42}` is rejected, `normalize_peer`
returning `null`; normalizing that `null` does not return `null` again but
throws. -/
theorem C11_counterexample :
    normalize_peer (.obj (.num 42) .undefined []) = .ok (.prim .null) ∧
    (normalize_peer (.obj (.num 42) .undefined []) >>= normalize_peer) ≠
      normalize_peer (.obj (.num 42) .undefined []) := by
  decide

/-- C11, amended: for every endpoint `e` with a string address, `normalize_peer`
accepts `e` and its result is a fixed point:
`normalize(normalize(e)) = normalize(e)`. -/
theorem C11_normalize_idempotent (e : JSVal) (h : e.hasStringAddress = true) :
    ∃ n, normalize_peer e = .ok n ∧ n.hasStringAddress = true ∧ normalize_peer n = .ok n ∧
      (normalize_peer e >>= normalize_peer) = normalize_peer e := by
  cases e with
  | prim p => simp [JSVal.hasStringAddress] at h
  | obj a p rest =>
    cases a with
    | str s =>
      have h1 : normalize_peer (.obj (.str s) p rest) =
          .ok (.obj (.str s) (.num (portOrDefault p)) []) := by
        simp [normalize_peer, Prim.isString]
      have h2 : normalize_peer (.obj (.str s) (.num (portOrDefault p)) []) =
          .ok (.obj (.str s) (.num (portOrDefault p)) []) := by
        simp [normalize_peer, Prim.isString, portOrDefault_idem]
      refine ⟨_, h1, rfl, h2, ?_⟩
      rw [h1]
      exact h2
    | undefined => simp [JSVal.hasStringAddress] at h
    | null => simp [JSVal.hasStringAddress] at h
    | bool b => simp [JSVal.hasStringAddress] at h
    | num n => simp [JSVal.hasStringAddress] at h

/-- C11, amended, at `{address: "::1"}`. -/
theorem C11_normalize_idempotent_witness :
    portless.hasStringAddress = true ∧
    ∃ n, normalize_peer portless = .ok n ∧ n.hasStringAddress = true ∧
      normalize_peer n = .ok n ∧ (normalize_peer portless >>= normalize_peer) =
        normalize_peer portless :=
  ⟨by decide, C11_normalize_idempotent portless (by decide)⟩

/-! ## C12: the port of a normalized endpoint -/

/-- C12, as stated, fails: the ports `-5` and `70000` are not valid port
numbers, yet `normalize_peer` keeps them instead of the default `4305`. -/
theorem C12_counterexample :
    normalize_peer (.obj (.str "::1") (.num (-5)) []) =
      .ok (.obj (.str "::1") (.num (-5)) []) ∧
    normalize_peer (.obj (.str "::1") (.num 70000) []) =
      .ok (.obj (.str "::1") (.num 70000) []) ∧
    normalize_peer (.obj (.str "::1") (.num (-5)) []) ≠
      .ok (.obj (.str "::1") (.num DEF_PORT) []) ∧
    normalize_peer (.obj (.str "::1") (.num 70000) []) ≠
      .ok (.obj (.str "::1") (.num DEF_PORT) []) := by
  decide

/-- C12, amended: for every endpoint with a string address, the port of
`normalize(e)` is the given port when that is an integer in `1..65535`, and
more generally when it is any non-zero integer of the signed 32-bit range
(negative ones and ones above `65535` included); it is the default `4305`
when the given port is absent, `null` or zero. -/
theorem C12_normalized_port (a : String) (rest : List (String × Prim)) (n : Int) :
    (1 ≤ n → n ≤ 65535 →
      normalize_peer (.obj (.str a) (.num n) rest) = .ok (.obj (.str a) (.num n) [])) ∧
    (-2147483648 ≤ n → n < 2147483648 → n ≠ 0 →
      normalize_peer (.obj (.str a) (.num n) rest) = .ok (.obj (.str a) (.num n) [])) ∧
    normalize_peer (.obj (.str a) .undefined rest) = .ok (.obj (.str a) (.num 4305) []) ∧
    normalize_peer (.obj (.str a) .null rest) = .ok (.obj (.str a) (.num 4305) []) ∧
    normalize_peer (.obj (.str a) (.num 0) rest) = .ok (.obj (.str a) (.num 4305) []) := by
  have key : -2147483648 ≤ n → n < 2147483648 → n ≠ 0 →
      normalize_peer (.obj (.str a) (.num n) rest) = .ok (.obj (.str a) (.num n) []) := by
    intro h₁ h₂ h₀
    simp [normalize_peer, Prim.isString, portOrDefault, Scalar.toInt32,
      wrapInt32_of_range h₁ h₂, h₀]
  refine ⟨fun h₁ h₂ => key (by omega) (by omega) (by omega), key, ?_, ?_, ?_⟩ <;>
    simp [normalize_peer, Prim.isString, portOrDefault, Scalar.toInt32, wrapInt32, DEF_PORT]

/-- C12, amended, at the address `"::1"` and the port `8080`. -/
theorem C12_normalized_port_witness :
    normalize_peer (.obj (.str "::1") (.num 8080) []) =
      .ok (.obj (.str "::1") (.num 8080) []) ∧
    normalize_peer (.obj (.str "::1") .undefined []) =
      .ok (.obj (.str "::1") (.num 4305) []) :=
  ⟨(C12_normalized_port "::1" [] 8080).1 (by decide) (by decide),
    (C12_normalized_port "::1" [] 8080).2.2.1⟩

/-! ## C13: rejection -/

/-- C13: for every endpoint whose address is missing or not a string,
`normalize_peer` returns `null`; for every other endpoint it returns an object
with exactly two properties, the string address and a non-zero integer port
(of the signed 32-bit range). -/
theorem C13_normalize_rejects_or_fills (a : Prim) (p : Scalar) (rest : List (String × Prim)) :
    (a.isString = false → normalize_peer (.obj a p rest) = .ok (.prim .null)) ∧
    (∀ s, a = .str s → ∃ n : Int, n ≠ 0 ∧ -2147483648 ≤ n ∧ n < 2147483648 ∧
      normalize_peer (.obj a p rest) = .ok (.obj (.str s) (.num n) [])) := by
  constructor
  · intro h
    simp [normalize_peer, h]
  · rintro s rfl
    exact ⟨portOrDefault p, portOrDefault_ne_zero p, (portOrDefault_range p).1,
      (portOrDefault_range p).2, by simp [normalize_peer, Prim.isString]⟩

/-- C13, at `{address: 42, port: 80}`, which is rejected, and at
`{address: "::1", port: 80}`, which is filled. -/
theorem C13_normalize_rejects_or_fills_witness :
    normalize_peer (.obj (.num 42) (.num 80) []) = .ok (.prim .null) ∧
    ∃ n : Int, n ≠ 0 ∧ -2147483648 ≤ n ∧ n < 2147483648 ∧
      normalize_peer (.obj (.str "::1") (.num 80) []) = .ok (.obj (.str "::1") (.num n) []) :=
  ⟨(C13_normalize_rejects_or_fills (.num 42) (.num 80) []).1 (by decide),
    (C13_normalize_rejects_or_fills (.str "::1") (.num 80) []).2 "::1" rfl⟩

/-! ## C14: eviction -/

theorem normalized_form {e : JSVal} (h : normalize_peer e = .ok e) :
    ∃ (a : String) (p : Int), e = .obj (.str a) (.num p) [] := by
  cases e with
  | prim p => cases p <;> simp [normalize_peer] at h
  | obj a p rest =>
    cases a with
    | str s =>
      simp only [normalize_peer, Prim.isString, if_true, Except.ok.injEq, JSVal.obj.injEq,
        true_and] at h
      obtain ⟨hp, hr⟩ := h
      subst hr
      exact ⟨s, portOrDefault p, congrArg (fun x => JSVal.obj (.str s) x []) hp.symm⟩
    | undefined => simp [normalize_peer, Prim.isString] at h
    | null => simp [normalize_peer, Prim.isString] at h
    | bool b => simp [normalize_peer, Prim.isString] at h
    | num n => simp [normalize_peer, Prim.isString] at h

theorem serialize_peer_normalized {e : JSVal} (h : normalize_peer e = .ok e) :
    serialize_peer e = .ok (keyOf e) := by
  obtain ⟨a, p, rfl⟩ := normalized_form h
  rfl

theorem keyOf_injective {e₁ e₂ : JSVal} (h₁ : normalize_peer e₁ = .ok e₁)
    (h₂ : normalize_peer e₂ = .ok e₂) (h : keyOf e₁ = keyOf e₂) : e₁ = e₂ := by
  obtain ⟨a, p, rfl⟩ := normalized_form h₁
  obtain ⟨b, q, rfl⟩ := normalized_form h₂
  have hk : a ++ NUL ++ toString p = b ++ NUL ++ toString q := h
  obtain ⟨rfl, rfl⟩ := key_injective hk
  rfl

theorem add_fresh {l : PeerList} {e : JSVal} (hn : normalize_peer e = .ok e)
    (hf : keyOf e ∉ l.data.keys) :
    l.add e = .ok ⟨⟨l.data.max,
      (if l.data.max ≤ l.data.entries.length then l.data.entries.tail else l.data.entries) ++
        [entryOf e]⟩⟩ := by
  unfold PeerList.add
  rw [serialize_peer_normalized hn]
  simp only [LRU.set, hf, if_false, entryOf]
  split_ifs <;> rfl

theorem has_normalized {l : PeerList} {e : JSVal} (hn : normalize_peer e = .ok e) :
    l.has e = .ok (decide (keyOf e ∈ l.data.keys)) := by
  unfold PeerList.has
  rw [serialize_peer_normalized hn]

theorem addAll_of_room (es : List JSVal) :
    ∀ l : PeerList, (∀ e ∈ es, normalize_peer e = .ok e) → (es.map keyOf).Nodup →
      (∀ e ∈ es, keyOf e ∉ l.data.keys) → l.data.entries.length + es.length ≤ l.data.max →
      l.addAll es = .ok ⟨⟨l.data.max, l.data.entries ++ es.map entryOf⟩⟩ := by
  induction es with
  | nil => intro l _ _ _ _; simp [PeerList.addAll]
  | cons e es ih =>
    intro l hn hd hf hlen
    simp only [List.length_cons] at hlen
    simp only [List.map_cons, List.nodup_cons] at hd
    have hadd := add_fresh (hn e (List.mem_cons_self _ _)) (hf e (List.mem_cons_self _ _))
    rw [if_neg (by omega)] at hadd
    rw [PeerList.addAll, hadd]
    simp only
    rw [ih _ (fun x hx => hn x (List.mem_cons_of_mem _ hx)) hd.2 ?_ ?_]
    · simp
    · intro x hx hmem
      simp only [LRU.keys, List.map_append, List.map_cons, List.map_nil, List.mem_append,
        List.mem_singleton, entryOf] at hmem
      rcases hmem with hmem | hmem
      · exact hf x (List.mem_cons_of_mem _ hx) hmem
      · exact hd.1 (hmem ▸ List.mem_map_of_mem keyOf hx)
    · simp only [List.length_append, List.length_singleton]
      omega

theorem addAll_append (xs ys : List JSVal) :
    ∀ l : PeerList, l.addAll (xs ++ ys) = (l.addAll xs >>= fun l' => l'.addAll ys) := by
  induction xs with
  | nil => intro l; rfl
  | cons x xs ih =>
    intro l
    simp only [List.cons_append, PeerList.addAll]
    cases l.add x with
    | error err => rfl
    | ok l' => exact ih l'

theorem map_snd_entryOf (xs : List JSVal) : (xs.map entryOf).map Prod.snd = xs := by
  induction xs with
  | nil => rfl
  | cons x xs ih => simp only [List.map_cons, ih, entryOf]

theorem map_fst_entryOf (xs : List JSVal) : (xs.map entryOf).map Prod.fst = xs.map keyOf := by
  induction xs with
  | nil => rfl
  | cons x xs ih => simp only [List.map_cons, ih, entryOf]

/-- C14: for every capacity `C >= 1` and every sequence of `C + 1` distinct
normalized endpoints added in order to an empty `PeerList` of capacity `C`,
the additions succeed, exactly `C` endpoints are stored afterwards, namely all
but the first in the order they were added, the first-added endpoint is
absent and all the others are present. -/
theorem C14_eviction (C : Nat) (hC : 1 ≤ C) (es : List JSVal)
    (hn : ∀ e ∈ es, normalize_peer e = .ok e) (hd : es.Nodup) (hl : es.length = C + 1) :
    ∃ l, (PeerList.new C).addAll es = .ok l ∧
      l.data.entries.length = C ∧
      l.data.entries.map Prod.snd = es.tail ∧
      (∀ e, es.head? = some e → l.has e = .ok false) ∧
      (∀ e ∈ es.tail, l.has e = .ok true) := by
  have hne : es ≠ [] := by intro h; rw [h] at hl; simp at hl
  obtain ⟨e₀, rest, rfl⟩ := List.exists_cons_of_ne_nil hne
  have hrest : rest ≠ [] := by
    intro h; rw [h] at hl; simp at hl; omega
  have hsplit : rest = rest.dropLast ++ [rest.getLast hrest] :=
    (List.dropLast_append_getLast hrest).symm
  generalize rest.dropLast = mid at hsplit
  generalize rest.getLast hrest = last at hsplit
  subst hsplit
  have hlen : mid.length + 1 = C := by
    simp only [List.length_cons, List.length_append, List.length_singleton, List.length_nil]
      at hl
    omega
  -- what distinctness gives
  have h0 : e₀ ∉ mid ++ [last] := (List.nodup_cons.mp hd).1
  have hml : (mid ++ [last]).Nodup := (List.nodup_cons.mp hd).2
  have hlm : last ∉ mid := fun hm =>
    List.disjoint_of_nodup_append hml hm (List.mem_singleton_self _)
  have hinitnd : (e₀ :: mid).Nodup :=
    hd.sublist ((List.sublist_append_left mid [last]).cons₂ e₀)
  have hn₀ : normalize_peer e₀ = .ok e₀ := hn _ (List.mem_cons_self _ _)
  have hnmid : ∀ x ∈ mid, normalize_peer x = .ok x := fun x hx =>
    hn x (List.mem_cons_of_mem _ (List.mem_append_left _ hx))
  have hlast : normalize_peer last = .ok last :=
    hn last (List.mem_cons_of_mem _ (List.mem_append_right _ (List.mem_singleton_self _)))
  have hninit : ∀ x ∈ e₀ :: mid, normalize_peer x = .ok x := by
    intro x hx
    rcases List.mem_cons.mp hx with rfl | hx
    · exact hn₀
    · exact hnmid x hx
  -- the first `C` additions fill the cache
  have hinit : (PeerList.new C).addAll (e₀ :: mid) =
      .ok ⟨⟨C, (e₀ :: mid).map entryOf⟩⟩ := by
    have := addAll_of_room (e₀ :: mid) (PeerList.new C) hninit
      (List.Nodup.map_on (fun x hx y hy h => keyOf_injective (hninit x hx) (hninit y hy) h)
        hinitnd)
      (by intro x _; simp [PeerList.new, LRU.new, LRU.keys])
      (by simp only [PeerList.new, LRU.new, List.length_nil, List.length_cons]; omega)
    simpa [PeerList.new, LRU.new] using this
  -- the last one evicts the first
  have hfresh : keyOf last ∉ (⟨⟨C, (e₀ :: mid).map entryOf⟩⟩ : PeerList).data.keys := by
    intro hmem
    simp only [LRU.keys, map_fst_entryOf, List.mem_map] at hmem
    obtain ⟨x, hx, hxe⟩ := hmem
    have hxl : x = last := keyOf_injective (hninit x hx) hlast hxe
    subst hxl
    rcases List.mem_cons.mp hx with h | h
    · exact h0 (h ▸ List.mem_append_right _ (List.mem_singleton_self _))
    · exact hlm h
  have hfinal : (PeerList.new C).addAll (e₀ :: (mid ++ [last])) =
      .ok ⟨⟨C, (mid ++ [last]).map entryOf⟩⟩ := by
    have happ := addAll_append (e₀ :: mid) [last] (PeerList.new C)
    simp only [List.cons_append] at happ
    rw [happ, hinit]
    show PeerList.addAll _ [last] = _
    rw [PeerList.addAll, add_fresh hlast hfresh]
    simp only [List.length_map, List.length_cons]
    rw [if_pos (by omega)]
    simp [PeerList.addAll]
  refine ⟨_, hfinal, ?_, ?_, ?_, ?_⟩
  · simp only [List.length_map, List.length_append, List.length_singleton]
    exact hlen
  · exact map_snd_entryOf _
  · intro e he
    simp only [List.head?_cons, Option.some.injEq] at he
    subst he
    rw [has_normalized hn₀]
    simp only [LRU.keys, map_fst_entryOf, Except.ok.injEq, decide_eq_false_iff_not,
      List.mem_map]
    rintro ⟨x, hx, hxe⟩
    have hxe₀ : x = e₀ := keyOf_injective (hn x (List.mem_cons_of_mem _ hx)) hn₀ hxe
    exact h0 (hxe₀ ▸ hx)
  · intro e he
    simp only [List.tail_cons] at he
    rw [has_normalized (hn _ (List.mem_cons_of_mem _ he))]
    simp only [LRU.keys, map_fst_entryOf, Except.ok.injEq, decide_eq_true_eq, List.mem_map]
    exact ⟨e, he, rfl⟩

/-- C14, at capacity `2` and the three endpoints `::1`, `::2`, `::3` on port
`4305`. -/
theorem C14_eviction_witness :
    ∃ l, (PeerList.new 2).addAll
        [.obj (.str "::1") (.num 4305) [], .obj (.str "::2") (.num 4305) [],
         .obj (.str "::3") (.num 4305) []] = .ok l ∧
      l.data.entries.length = 2 ∧
      l.data.entries.map Prod.snd =
        [.obj (.str "::2") (.num 4305) [], .obj (.str "::3") (.num 4305) []] ∧
      (∀ e, some (JSVal.obj (.str "::1") (.num 4305) []) = some e → l.has e = .ok false) ∧
      (∀ e ∈ [JSVal.obj (.str "::2") (.num 4305) [], .obj (.str "::3") (.num 4305) []],
        l.has e = .ok true) :=
  C14_eviction 2 (by decide)
    [.obj (.str "::1") (.num 4305) [], .obj (.str "::2") (.num 4305) [],
     .obj (.str "::3") (.num 4305) []] (by decide) (by decide) (by decide)

/-! ## C16: the first token -/

theorem vocabulary_prefix_free :
    ∀ t₁ ∈ vocabulary, ∀ t₂ ∈ vocabulary, t₁.data <+: t₂.data → t₁ = t₂ := by
  decide

theorem vocabulary_ne_nil : ∀ t ∈ vocabulary, t.data ≠ [] := by
  decide

theorem matchesAt_isPrefix {tok : String} {s : List Char} (h : matchesAt tok s = true) :
    tok.data <+: s.map Char.toLower := by
  have h' : (s.take tok.length).map Char.toLower = tok.data := by simpa [matchesAt] using h
  rw [← h']
  exact List.IsPrefix.map _ (List.take_prefix _ _)

theorem matchesAt_unique {t₁ t₂ : String} (h₁ : t₁ ∈ vocabulary) (h₂ : t₂ ∈ vocabulary)
    {s : List Char} (m₁ : matchesAt t₁ s = true) (m₂ : matchesAt t₂ s = true) : t₁ = t₂ := by
  rcases List.prefix_or_prefix_of_prefix (matchesAt_isPrefix m₁) (matchesAt_isPrefix m₂)
    with h | h
  · exact vocabulary_prefix_free t₁ h₁ t₂ h₂ h
  · exact (vocabulary_prefix_free t₂ h₂ t₁ h₁ h).symm

theorem group_of_occurrence {tok : String} (htok : tok ∈ vocabulary) {mid : List Char}
    (hmid : mid.map Char.toLower = tok.data) (post : List Char) :
    group (mid ++ post) = some mid := by
  have hlen : tok.length = mid.length := by
    have := congrArg List.length hmid
    rw [List.length_map] at this
    exact this.symm
  have hm : matchesAt tok (mid ++ post) = true := by
    simp [matchesAt, hlen, hmid]
  unfold group
  cases hf : alternatives.find? (fun t => matchesAt t (mid ++ post)) with
  | none =>
    rw [List.find?_eq_none] at hf
    exact absurd hm (by simpa using hf tok htok)
  | some t =>
    have ht : t = tok :=
      matchesAt_unique (List.mem_of_find?_eq_some hf) htok (by simpa using List.find?_some hf) hm
    subst ht
    simp [hlen]

theorem exec_of_first_occurrence {tok : String} (htok : tok ∈ vocabulary) {mid : List Char}
    (hmid : mid.map Char.toLower = tok.data) (post : List Char) :
    ∀ pre : List Char, (∀ c ∈ pre, isLineTerminator c = false) →
      (∀ tok' ∈ vocabulary, ∀ pre', OccursAfter tok' pre' (pre ++ mid ++ post) →
        pre.length ≤ pre'.length) →
      exec (pre ++ mid ++ post) = some mid := by
  intro pre
  induction pre with
  | nil =>
    intro _ _
    have hg := group_of_occurrence htok hmid post
    have hne : mid ≠ [] := by
      intro h
      rw [h] at hmid
      exact vocabulary_ne_nil tok htok hmid.symm
    obtain ⟨c, cs, hc⟩ := List.exists_cons_of_ne_nil hne
    subst hc
    simp only [List.nil_append, List.cons_append] at hg ⊢
    rw [exec, hg]
  | cons c pre ih =>
    intro hpre hmin
    have hnone : group (c :: (pre ++ mid ++ post)) = none := by
      cases hg : group (c :: (pre ++ mid ++ post)) with
      | none => rfl
      | some g =>
        obtain ⟨tok', htok', hmap, post', hs⟩ := group_eq_some hg
        have := hmin tok' htok' [] ⟨g, post', by simpa using hs, hmap⟩
        simp at this
    have hc : isLineTerminator c = false := hpre c (List.mem_cons_self _ _)
    simp only [List.cons_append]
    rw [exec, hnone]
    simp only [hc, Bool.false_eq_true, if_false]
    refine ih (fun x hx => hpre x (List.mem_cons_of_mem _ hx)) ?_
    intro tok' htok' pre' ⟨mid', post', hs, hmap⟩
    have := hmin tok' htok' (c :: pre') ⟨mid', post', by simp [hs], hmap⟩
    simpa using this

/-- C16: for every command string the event emitted is one of `ping`, `pong`,
`query`, `assert`, `peer`, `unknown`; and for every command string without a
line terminator, if a token of the vocabulary occurs in it, up to case, at an
index that no occurrence of a token precedes, the event emitted is that token
in lower case. -/
theorem C16_first_token (q : String) :
    eventName (.str q) ∈ ["ping", "pong", "query", "assert", "peer", "unknown"] ∧
    ((∀ c ∈ q.data, isLineTerminator c = false) →
      ∀ tok ∈ vocabulary, ∀ pre, OccursAfter tok pre q.data →
        (∀ tok' ∈ vocabulary, ∀ pre', OccursAfter tok' pre' q.data →
          pre.length ≤ pre'.length) →
        eventName (.str q) = tok) := by
  have hq : (Prim.str q).toStr.data = q.data := rfl
  constructor
  · cases he : exec q.data with
    | none =>
      have hn : eventName (.str q) = "unknown" := by simp [eventName, hq, he]
      rw [hn]; decide
    | some g =>
      obtain ⟨tok, htok, hmap, -⟩ := exec_eq_some he
      have hn : eventName (.str q) = tok := by simp [eventName, hq, he, hmap]
      rw [hn]
      have hsub : ∀ t ∈ vocabulary,
          t ∈ ["ping", "pong", "query", "assert", "peer", "unknown"] := by
        decide
      exact hsub tok htok
  · intro hlt tok htok pre ⟨mid, post, hs, hmid⟩ hmin
    have hpre : ∀ c ∈ pre, isLineTerminator c = false := by
      intro c hc
      exact hlt c (by rw [hs]; simp [hc])
    have hex : exec q.data = some mid := by
      have := exec_of_first_occurrence htok hmid post pre hpre (by rw [← hs]; exact hmin)
      rw [hs]; exact this
    simp [eventName, hq, hex, hmid]

/-- C16, at the command string `Pong ping`: its first token is `pong`. -/
theorem C16_first_token_witness :
    (∀ c ∈ ("Pong ping").data, isLineTerminator c = false) ∧
    OccursAfter "pong" [] ("Pong ping").data ∧
    eventName (.str "Pong ping") = "pong" :=
  ⟨by decide, ⟨"Pong".data, " ping".data, by decide, by decide⟩,
    (C16_first_token "Pong ping").2 (by decide) "pong" (by decide) []
      ⟨"Pong".data, " ping".data, by decide, by decide⟩
      (fun _ _ _ _ => Nat.zero_le _)⟩

/-! ## C2: the two sets -/

theorem normalize_peer_cases {e n : JSVal} (h : normalize_peer e = .ok n) :
    n = .prim .null ∨
      ∃ a p rest, e = .obj (.str a) p rest ∧ n = .obj (.str a) (.num (portOrDefault p)) [] := by
  cases e with
  | prim q => cases q <;> simp [normalize_peer] at h <;> exact Or.inl h.symm
  | obj a p rest =>
    cases a with
    | str s =>
      right
      simp only [normalize_peer, Prim.isString, if_true, Except.ok.injEq] at h
      exact ⟨s, p, rest, rfl, h.symm⟩
    | undefined => left; simpa [normalize_peer, Prim.isString] using h.symm
    | null => left; simpa [normalize_peer, Prim.isString] using h.symm
    | bool b => left; simpa [normalize_peer, Prim.isString] using h.symm
    | num m => left; simpa [normalize_peer, Prim.isString] using h.symm

theorem normalize_peer_normal (a : String) (p : Scalar) :
    normalize_peer (.obj (.str a) (.num (portOrDefault p)) []) =
      .ok (.obj (.str a) (.num (portOrDefault p)) []) := by
  simp [normalize_peer, Prim.isString, portOrDefault_idem]

theorem normalKey_normal (a : String) (p : Scalar) :
    NormalKey (a ++ NUL ++ toString (portOrDefault p)) :=
  ⟨_, normalize_peer_normal a p, rfl⟩

theorem scalar_toStr_no_nul (p : Scalar) : Char.ofNat 0 ∉ p.toStr.data := by
  cases p with
  | undefined => decide
  | null => decide
  | bool b => cases b <;> decide
  | num n => exact int_toString_no_nul n

theorem scalar_of_toStr_eq_numeral {p : Scalar} {q : Int} (h : p.toStr = toString q) :
    p = .num q := by
  obtain ⟨c, hc, hd⟩ := int_toString_getLast q
  have key : ∀ (s : String) (d : Char), s = toString q → s.data.getLast? = some d →
      d.isDigit = false → False := by
    intro s d hs hl hnd
    rw [hs, hc] at hl
    have : c = d := Option.some.inj hl
    subst this
    rw [hd] at hnd
    cases hnd
  cases p with
  | undefined => exact (key _ 'd' h (by decide) (by decide)).elim
  | null => exact (key _ 'l' h (by decide) (by decide)).elim
  | bool b =>
    cases b
    · exact (key _ 'e' h (by decide) (by decide)).elim
    · exact (key _ 'e' h (by decide) (by decide)).elim
  | num n => exact congrArg Scalar.num (int_toString_injective h)

theorem key_split {a b x y : String} (hx : Char.ofNat 0 ∉ x.data) (hy : Char.ofNat 0 ∉ y.data)
    (h : a ++ NUL ++ x = b ++ NUL ++ y) : a = b ∧ x = y := by
  have hd : a.data ++ Char.ofNat 0 :: x.data = b.data ++ Char.ofNat 0 :: y.data := by
    have := congrArg String.data h
    simpa [NUL, String.data_append] using this
  have hr := congrArg List.reverse hd
  simp only [List.reverse_append, List.reverse_cons, List.append_assoc, List.singleton_append]
    at hr
  obtain ⟨h1, h2⟩ := append_cons_cancel (by simpa using hx) (by simpa using hy) hr
  exact ⟨String.ext (List.reverse_injective h2), String.ext (List.reverse_injective h1)⟩

/-- An endpoint whose key is the key of some normal form has that key in
common with its own normal form. -/
theorem serialize_normal_of_normalKey {a : String} {p : Scalar} (rest : List (String × Prim))
    (hk : NormalKey (a ++ NUL ++ p.toStr)) :
    serialize_peer (.obj (.str a) (.num (portOrDefault p)) []) =
      serialize_peer (.obj (.str a) p rest) := by
  obtain ⟨m, hm, hs⟩ := hk
  obtain ⟨b, q, rfl⟩ := normalized_form hm
  have hq : portOrDefault (.num q) = q := by
    have := hm
    simp only [normalize_peer, Prim.isString, if_true, Except.ok.injEq, JSVal.obj.injEq,
      Scalar.num.injEq, true_and, and_true] at this
    exact this
  have hkey : b ++ NUL ++ toString q = a ++ NUL ++ p.toStr := by
    simpa [serialize_peer, Prim.toStr, Scalar.toStr] using hs
  obtain ⟨-, hp⟩ := key_split (int_toString_no_nul q) (scalar_toStr_no_nul p) hkey
  have hpq : p = .num q := scalar_of_toStr_eq_numeral hp.symm
  subst hpq
  rw [hq]
  rfl

theorem apart_new (pl : Nat) : Apart (PeerTalkSocket.new pl) := by
  refine ⟨?_, ?_, ?_⟩ <;> intro k hk <;>
    simp [PeerTalkSocket.new, PeerList.new, LRU.new, LRU.keys] at hk

theorem apart_addUntrustedPeer {s : PeerTalkSocket} {peer : JSVal} (hs : Apart s)
    (hf : Call.disciplined s (.addUntrustedPeer peer) = true) :
    Apart (s.addUntrustedPeer peer).state := by
  unfold PeerTalkSocket.addUntrustedPeer
  cases hn : normalize_peer peer with
  | error e => simpa using hs
  | ok n =>
    simp only [Call.disciplined, hn] at hf
    simp only
    rcases normalize_peer_cases hn with rfl | ⟨a, p, rest, -, rfl⟩
    · simpa [PeerList.add, serialize_peer] using hs
    · have hnot : a ++ NUL ++ toString (portOrDefault p) ∉ s.peers.data.keys := by
        simpa [PeerTalkSocket.contains, PeerList.has, serialize_peer, Prim.toStr,
          Scalar.toStr] using hf
      simp only [PeerList.add, serialize_peer, Prim.toStr, Scalar.toStr]
      refine ⟨?_, ?_, hs.2.2⟩
      · intro k hk
        rcases LRU.eq_or_mem_of_mem_keys_set hk with rfl | hk
        · exact hnot
        · exact hs.1 k hk
      · intro k hk
        rcases LRU.eq_or_mem_of_mem_keys_set hk with rfl | hk
        · exact normalKey_normal a p
        · exact hs.2.1 k hk

theorem apart_addPeer {s : PeerTalkSocket} {peer : JSVal} (hs : Apart s)
    (hf : Call.disciplined s (.addPeer peer) = true) : Apart (s.addPeer peer).state := by
  simp only [Call.disciplined, Bool.and_eq_true, Bool.not_eq_true'] at hf
  obtain ⟨hfiled, hpend⟩ := hf
  unfold JSVal.filedAsNormal at hfiled
  cases hn : normalize_peer peer with
  | error e => rw [hn] at hfiled; cases hfiled
  | ok n =>
    rw [hn] at hfiled
    simp only [Bool.and_eq_true, decide_eq_true_eq] at hfiled
    obtain ⟨hsa, hser⟩ := hfiled
    rcases normalize_peer_cases hn with rfl | ⟨a, p, rest, rfl, rfl⟩
    · cases hsa
    · have hser' : serialize_peer (.obj (.str a) p rest) =
          .ok (a ++ NUL ++ toString (portOrDefault p)) := by
        rw [hser]; rfl
      have hnotp : a ++ NUL ++ toString (portOrDefault p) ∉ s.pending.data.keys := by
        simpa [PeerTalkSocket.isPending, PeerList.has, hser'] using hpend
      have hst : (s.addPeer (.obj (.str a) p rest)).state =
          { s with peers := ⟨s.peers.data.set (a ++ NUL ++ toString (portOrDefault p))
              (.obj (.str a) p rest)⟩ } := by
        simp [PeerTalkSocket.addPeer, PeerList.has, PeerList.add, hser', hnotp]
      rw [hst]
      refine ⟨?_, hs.2.1, ?_⟩
      · intro k hk hmem
        rcases LRU.eq_or_mem_of_mem_keys_set hmem with rfl | hmem
        · exact hnotp hk
        · exact hs.1 k hk hmem
      · intro k hk
        rcases LRU.eq_or_mem_of_mem_keys_set hk with rfl | hk
        · exact normalKey_normal a p
        · exact hs.2.2 k hk

theorem apart_removePeer {s : PeerTalkSocket} (peer : JSVal) (hs : Apart s) :
    Apart (s.removePeer peer).state := by
  unfold PeerTalkSocket.removePeer
  cases normalize_peer peer with
  | error e => simpa using hs
  | ok n =>
    simp only
    unfold PeerList.remove
    cases serialize_peer n with
    | error e => simpa using hs
    | ok key =>
      simp only
      refine ⟨?_, ?_, ?_⟩
      · intro k hk hmem
        exact hs.1 k (LRU.mem_keys_remove hk).1 (LRU.mem_keys_remove hmem).1
      · intro k hk
        exact hs.2.1 k (LRU.mem_keys_remove hk).1
      · intro k hk
        exact hs.2.2 k (LRU.mem_keys_remove hk).1

theorem apart_run (calls : List Call) :
    ∀ s : PeerTalkSocket, Apart s → s.disciplinedRun calls = true → Apart (s.run calls) := by
  induction calls with
  | nil => intro s hs _; exact hs
  | cons c cs ih =>
    intro s hs hf
    simp only [PeerTalkSocket.disciplinedRun, Bool.and_eq_true] at hf
    refine ih _ ?_ hf.2
    cases c with
    | addUntrustedPeer peer => exact apart_addUntrustedPeer hs hf.1
    | addPeer peer => exact apart_addPeer hs hf.1
    | removePeer peer => exact apart_removePeer peer hs

theorem mem_keys_of_has {l : PeerList} {e : JSVal} (h : l.has e = .ok true) :
    ∃ k, serialize_peer e = .ok k ∧ k ∈ l.data.keys := by
  unfold PeerList.has at h
  cases hser : serialize_peer e with
  | error err => rw [hser] at h; cases h
  | ok k =>
    rw [hser] at h
    exact ⟨k, rfl, by simpa using h⟩

theorem has_of_contains {s : PeerTalkSocket} {e : JSVal} (h : s.contains e = true) :
    s.peers.has e = .ok true := by
  unfold PeerTalkSocket.contains at h
  cases hh : s.peers.has e with
  | error err => rw [hh] at h; cases h
  | ok b => rw [hh] at h; simp only at h; rw [h]

theorem has_of_isPending {s : PeerTalkSocket} {e : JSVal} (h : s.isPending e = true) :
    s.pending.has e = .ok true := by
  unfold PeerTalkSocket.isPending at h
  cases hh : s.pending.has e with
  | error err => rw [hh] at h; cases h
  | ok b => rw [hh] at h; simp only at h; rw [h]

theorem not_both_of_apart {s : PeerTalkSocket} (hs : Apart s) (e : JSVal) :
    ¬ (s.contains e = true ∧ s.isPending e = true) := by
  rintro ⟨h1, h2⟩
  obtain ⟨k, hk, hmem⟩ := mem_keys_of_has (has_of_contains h1)
  obtain ⟨k', hk', hmem'⟩ := mem_keys_of_has (has_of_isPending h2)
  rw [hk] at hk'
  cases hk'
  exact hs.1 k hmem' hmem

theorem not_across_of_apart {s : PeerTalkSocket} (hs : Apart s) {e n : JSVal}
    (hn : normalize_peer e = .ok n) :
    ¬ (s.contains e = true ∧ s.isPending n = true) ∧
    ¬ (s.contains n = true ∧ s.isPending e = true) := by
  rcases normalize_peer_cases hn with rfl | ⟨a, p, rest, rfl, rfl⟩
  · constructor
    · rintro ⟨-, h⟩
      simp [PeerTalkSocket.isPending, PeerList.has, serialize_peer] at h
    · rintro ⟨h, -⟩
      simp [PeerTalkSocket.contains, PeerList.has, serialize_peer] at h
  · have hke : serialize_peer (.obj (.str a) p rest) = .ok (a ++ NUL ++ p.toStr) := rfl
    constructor
    · rintro ⟨h1, h2⟩
      obtain ⟨k, hk, hmem⟩ := mem_keys_of_has (has_of_contains h1)
      obtain ⟨k', hk', hmem'⟩ := mem_keys_of_has (has_of_isPending h2)
      rw [hke] at hk
      cases hk
      rw [serialize_normal_of_normalKey rest (hs.2.2 _ hmem), hke] at hk'
      cases hk'
      exact hs.1 _ hmem' hmem
    · rintro ⟨h1, h2⟩
      obtain ⟨k, hk, hmem⟩ := mem_keys_of_has (has_of_contains h1)
      obtain ⟨k', hk', hmem'⟩ := mem_keys_of_has (has_of_isPending h2)
      rw [hke] at hk'
      cases hk'
      rw [serialize_normal_of_normalKey rest (hs.2.1 _ hmem'), hke] at hk
      cases hk
      exact hs.1 _ hmem' hmem

/-- C2, as stated, fails: from the empty registry, `addPeer(e)` followed by
`addUntrustedPeer(e)` for `e = {address: "::1", port: 4305}` leaves `e` both
in the trusted set and in the pending set. -/
theorem C2_counterexample :
    ((PeerTalkSocket.new 256).run [.addPeer loopback, .addUntrustedPeer loopback]).contains
        loopback = true ∧
    ((PeerTalkSocket.new 256).run [.addPeer loopback, .addUntrustedPeer loopback]).isPending
        loopback = true := by
  decide

/-- C2, amended: in every state reached from an empty registry by a sequence
of `addUntrustedPeer`, `addPeer` and `removePeer` calls in which
`addUntrustedPeer` is never called on an endpoint whose normal form is in the
trusted set at that moment, and `addPeer` is called only on an endpoint that
is filed under the key of its normal form and is not in the pending set at
that moment, no endpoint is a member of both the pending set and the trusted
set, and none is in one of them as given and in the other in normal form. -/
theorem C2_disjoint_of_disciplined (pl : Nat) (calls : List Call)
    (h : (PeerTalkSocket.new pl).disciplinedRun calls = true) (e : JSVal) :
    ¬ (((PeerTalkSocket.new pl).run calls).contains e = true ∧
       ((PeerTalkSocket.new pl).run calls).isPending e = true) ∧
    ∀ n, normalize_peer e = .ok n →
      ¬ (((PeerTalkSocket.new pl).run calls).contains e = true ∧
         ((PeerTalkSocket.new pl).run calls).isPending n = true) ∧
      ¬ (((PeerTalkSocket.new pl).run calls).contains n = true ∧
         ((PeerTalkSocket.new pl).run calls).isPending e = true) :=
  ⟨not_both_of_apart (apart_run calls _ (apart_new pl) h) e,
    fun _ hn => not_across_of_apart (apart_run calls _ (apart_new pl) h) hn⟩

/-- C2, amended, on a run in which an endpoint is gossiped, a sender and a
second endpoint are promoted, the sender is removed and then gossiped: at the
end the second endpoint is trusted only and the sender is pending only. -/
theorem C2_disjoint_of_disciplined_witness :
    (PeerTalkSocket.new 2).disciplinedRun
        [.addUntrustedPeer gossiped, .addPeer sender, .addPeer loopback,
         .removePeer sender, .addUntrustedPeer sender] = true ∧
    ((PeerTalkSocket.new 2).run
        [.addUntrustedPeer gossiped, .addPeer sender]).contains sender = true ∧
    ((PeerTalkSocket.new 2).run
        [.addUntrustedPeer gossiped, .addPeer sender, .addPeer loopback,
         .removePeer sender, .addUntrustedPeer sender]).contains loopback = true ∧
    ((PeerTalkSocket.new 2).run
        [.addUntrustedPeer gossiped, .addPeer sender, .addPeer loopback,
         .removePeer sender, .addUntrustedPeer sender]).isPending sender = true ∧
    ¬ (((PeerTalkSocket.new 2).run
          [.addUntrustedPeer gossiped, .addPeer sender, .addPeer loopback,
           .removePeer sender, .addUntrustedPeer sender]).contains sender = true ∧
       ((PeerTalkSocket.new 2).run
          [.addUntrustedPeer gossiped, .addPeer sender, .addPeer loopback,
           .removePeer sender, .addUntrustedPeer sender]).isPending sender = true) :=
  ⟨by decide, by decide, by decide, by decide,
    (C2_disjoint_of_disciplined 2 _ (by decide) sender).1⟩

end InternetMoney
